import Mathlib

/-!
Verification of the realtime voice-chat client (App.tsx and the unnamed
variant). We shallow-embed the audio pipeline: base64 codec, PCM16
encode/decode, the playback scheduler, the transcript assembler, session
setup and the teardown routine. Audio samples and clock times are modelled
as rationals; JavaScript 16-bit conversion (ToInt16) is modelled as
truncation toward zero followed by wrapping modulo 2^16.
-/

namespace VoiceChat

/-! ## Playback scheduler (App.tsx onmessage audio branch; part_000 lines 236-265)

State: the `nextStartTimeRef` cursor and the `sourcesRef` live-source set.
`enqueue` models one audio-chunk event: `nextStartTime = max(nextStartTime,
ctx.currentTime)`, `source.start(nextStartTime)`, `nextStartTime +=
buffer.duration`, `sources.add(source)`.  A source is recorded by its
start time and duration. -/

structure Sched where
  nextStartTime : ℚ
  sources : List (ℚ × ℚ)
deriving DecidableEq

/-- One audio-chunk event: `now` is `outputAudioContext.currentTime`,
`dur` is `audioBuffer.duration`.  Returns the scheduled start time and
the new scheduler state. -/
def enqueue (st : Sched) (now dur : ℚ) : ℚ × Sched :=
  let startAt := max st.nextStartTime now
  (startAt, { nextStartTime := startAt + dur, sources := st.sources ++ [(startAt, dur)] })

/-- The `interrupted` branch of part_000's onmessage: stop every live
source, clear the set, reset the cursor to 0. -/
def interruptSched (_st : Sched) : Sched :=
  { nextStartTime := 0, sources := [] }

/-- The start times computed for a sequence of audio-chunk events, each
given as (clock time at arrival, buffer duration). -/
def schedStarts (st : Sched) : List (ℚ × ℚ) → List ℚ
  | [] => []
  | c :: rest =>
    (enqueue st c.1 c.2).1 :: schedStarts (enqueue st c.1 c.2).2 rest

theorem schedStarts_length (st : Sched) (chunks : List (ℚ × ℚ)) :
    (schedStarts st chunks).length = chunks.length := by
  induction chunks generalizing st with
  | nil => rfl
  | cons c rest ih => simp [schedStarts, ih]

theorem schedStarts_head (st : Sched) (c : ℚ × ℚ) (rest : List (ℚ × ℚ)) :
    (schedStarts st (c :: rest)).headI = max st.nextStartTime c.1 := by
  simp [schedStarts, enqueue]

/-- C1: each enqueue computes `startAt = max(nextStartTime, now)`, schedules
the chunk at `startAt` and advances the cursor by the buffer duration;
consequently, for buffer durations that are non-negative, the computed start
times are non-decreasing and `start(i+1) >= start(i) + d(i)`, so chunks
enqueued in call order play in call order with no overlap. -/
theorem enqueue_start_times_ordered (st : Sched) (chunks : List (ℚ × ℚ))
    (hd : ∀ c ∈ chunks, 0 ≤ c.2) :
    List.Chain' (· ≤ ·) (schedStarts st chunks) ∧
    ∀ i, i + 1 < (schedStarts st chunks).length →
      (schedStarts st chunks).getD i 0 + (chunks.getD i (0, 0)).2 ≤
        (schedStarts st chunks).getD (i + 1) 0 := by
  induction chunks generalizing st with
  | nil =>
    refine ⟨by simp [schedStarts], ?_⟩
    intro i hi
    simp [schedStarts] at hi
  | cons c rest ih =>
    have hc : 0 ≤ c.2 := hd c (List.mem_cons_self c rest)
    have hrest : ∀ x ∈ rest, 0 ≤ x.2 := fun x hx => hd x (List.mem_cons_of_mem _ hx)
    obtain ⟨ihChain, ihGap⟩ := ih (enqueue st c.1 c.2).2 hrest
    have hrec : schedStarts st (c :: rest) =
        (enqueue st c.1 c.2).1 :: schedStarts (enqueue st c.1 c.2).2 rest := by
      simp [schedStarts]
    constructor
    · rw [hrec]
      refine List.chain'_cons'.mpr ⟨?_, ihChain⟩
      intro b hb
      cases rest with
      | nil => simp [schedStarts] at hb
      | cons c' rest' =>
        have hb' : b = (enqueue (enqueue st c.1 c.2).2 c'.1 c'.2).1 := by
          have : schedStarts (enqueue st c.1 c.2).2 (c' :: rest') =
              (enqueue (enqueue st c.1 c.2).2 c'.1 c'.2).1 ::
                schedStarts (enqueue (enqueue st c.1 c.2).2 c'.1 c'.2).2 rest' := by
            simp [schedStarts]
          rw [this] at hb
          exact (by simpa using hb : _ = b).symm
      -- b = max (startAt + dur) now' ≥ startAt + dur ≥ startAt
        subst hb'
        simp only [enqueue]
        have h1 : max st.nextStartTime c.1 ≤ max st.nextStartTime c.1 + c.2 := by linarith
        exact le_trans h1 (le_max_left _ _)
    · rw [hrec]
      intro i hi
      cases i with
      | zero =>
        cases rest with
        | nil => simp [schedStarts] at hi
        | cons c' rest' =>
          have hrec2 : schedStarts (enqueue st c.1 c.2).2 (c' :: rest') =
              (enqueue (enqueue st c.1 c.2).2 c'.1 c'.2).1 ::
                schedStarts (enqueue (enqueue st c.1 c.2).2 c'.1 c'.2).2 rest' := by
            simp [schedStarts]
          rw [hrec2]
          simp only [List.getD_cons_zero, List.getD_cons_succ, enqueue]
          exact le_max_left _ _
      | succ j =>
        simp only [List.length_cons] at hi
        simp only [List.getD_cons_succ]
        exact ihGap j (by omega)

/-- Witness for C1 at a concrete chunk sequence. -/
theorem enqueue_start_times_ordered_witness :
    List.Chain' (· ≤ ·)
      (schedStarts ⟨0, []⟩ [((0 : ℚ), (1 : ℚ)), (2, 1/2), (2, 1)]) :=
  (enqueue_start_times_ordered ⟨0, []⟩ [((0 : ℚ), (1 : ℚ)), (2, 1/2), (2, 1)]
    (by norm_num)).1

/-- C6: after an interruption event the live-source set is empty and
`nextStartTime` is 0, and the next enqueued chunk is scheduled exactly at
the current (non-negative) output-clock time, not at the stale cursor. -/
theorem interrupt_clears_state (st : Sched) (now dur : ℚ) (hnow : 0 ≤ now) :
    (interruptSched st).sources = [] ∧ (interruptSched st).nextStartTime = 0 ∧
    (enqueue (interruptSched st) now dur).1 = now := by
  refine ⟨rfl, rfl, ?_⟩
  simp [enqueue, interruptSched, max_eq_right hnow]

/-- Witness for C6 at a concrete interrupted state. -/
theorem interrupt_clears_state_witness :
    (interruptSched ⟨(5 : ℚ), [((1 : ℚ), (2 : ℚ))]⟩).sources = [] ∧
    (interruptSched ⟨(5 : ℚ), [((1 : ℚ), (2 : ℚ))]⟩).nextStartTime = 0 ∧
    (enqueue (interruptSched ⟨(5 : ℚ), [((1 : ℚ), (2 : ℚ))]⟩) 3 (1/2)).1 = 3 :=
  interrupt_clears_state ⟨5, [(1, 2)]⟩ 3 (1/2) (by norm_num)

/-! ## Transcript assembler (App.tsx onmessage lines 227-269, closeSession)

`chatHistory` plus the two turn-active flags `isUserTurnActiveRef` and
`isAiTurnActiveRef`.  An input/output transcription message either appends
to the last message (when that speaker's turn is active and the last
message really is theirs) or pushes a fresh message and activates the
turn; `turnComplete` deactivates both flags; `closeSession` also resets
both flags. -/

inductive Sender
  | user
  | ai
deriving DecidableEq

structure ChatMessage where
  sender : Sender
  text : String
deriving DecidableEq

structure TState where
  chatHistory : List ChatMessage
  isUserTurnActive : Bool
  isAiTurnActive : Bool
deriving DecidableEq

inductive ServerEvent
  | inputTranscription (text : String)
  | outputTranscription (text : String)
  | turnComplete
  | sessionClose

/-- The update inside `setChatHistory` when a turn is already active:
`lastMessage.text += text` guarded by `lastMessage?.sender === s`. -/
def appendToLast (h : List ChatMessage) (s : Sender) (t : String) :
    List ChatMessage :=
  match h.getLast? with
  | some m => if m.sender = s then h.dropLast ++ [⟨s, m.text ++ t⟩] else h
  | none => h

/-- One `onmessage` transcript branch of App.tsx (`sessionClose` models
the flag reset in `closeSession`). -/
def stepEvent (st : TState) : ServerEvent → TState
  | .inputTranscription t =>
    if st.isUserTurnActive then
      { st with isAiTurnActive := false,
                chatHistory := appendToLast st.chatHistory .user t }
    else
      { chatHistory := st.chatHistory ++ [⟨.user, t⟩],
        isUserTurnActive := true, isAiTurnActive := false }
  | .outputTranscription t =>
    if st.isAiTurnActive then
      { st with isUserTurnActive := false,
                chatHistory := appendToLast st.chatHistory .ai t }
    else
      { chatHistory := st.chatHistory ++ [⟨.ai, t⟩],
        isAiTurnActive := true, isUserTurnActive := false }
  | .turnComplete => { st with isUserTurnActive := false, isAiTurnActive := false }
  | .sessionClose => { st with isUserTurnActive := false, isAiTurnActive := false }

def runEvents (st : TState) : List ServerEvent → TState
  | [] => st
  | e :: es => runEvents (stepEvent st e) es

/-- The greeting message App.tsx seeds `chatHistory` with. -/
def INITIAL_GREETING : String :=
  "Dạ, con kính chào Bà ạ. Chúc Bà một ngày mới an lành và vui vẻ. Con đã sẵn sàng lắng nghe Bà ạ. Bà có thể nhấn vào nút micro ở phía dưới để bắt đầu trò chuyện với con."

/-- The initial React state of App.tsx. -/
def initState : TState :=
  { chatHistory := [⟨.ai, INITIAL_GREETING⟩],
    isUserTurnActive := false, isAiTurnActive := false }

/-- C2: consecutive partials for the same active speaker append to the same
open turn (history length unchanged, text concatenated onto the last
message); a turn closes when the other speaker's partial, a turn-complete,
or a session close arrives; the concrete Xin/chào merge and interleaving
examples behave as specified. -/
theorem transcript_turn_merge :
    (∀ (st : TState) (m : ChatMessage) (t : String),
        st.isAiTurnActive = true → st.chatHistory.getLast? = some m →
        m.sender = .ai →
        (stepEvent st (.outputTranscription t)).chatHistory =
          st.chatHistory.dropLast ++ [⟨.ai, m.text ++ t⟩] ∧
        (stepEvent st (.outputTranscription t)).chatHistory.length =
          st.chatHistory.length) ∧
    (∀ (st : TState) (m : ChatMessage) (t : String),
        st.isUserTurnActive = true → st.chatHistory.getLast? = some m →
        m.sender = .user →
        (stepEvent st (.inputTranscription t)).chatHistory =
          st.chatHistory.dropLast ++ [⟨.user, m.text ++ t⟩] ∧
        (stepEvent st (.inputTranscription t)).chatHistory.length =
          st.chatHistory.length) ∧
    (∀ (st : TState) (t : String),
        (stepEvent st (.inputTranscription t)).isAiTurnActive = false ∧
        (stepEvent st (.outputTranscription t)).isUserTurnActive = false ∧
        (stepEvent st .turnComplete).isUserTurnActive = false ∧
        (stepEvent st .turnComplete).isAiTurnActive = false ∧
        (stepEvent st .sessionClose).isUserTurnActive = false ∧
        (stepEvent st .sessionClose).isAiTurnActive = false) ∧
    (∀ (st : TState) (t : String), st.isAiTurnActive = false →
        (stepEvent st (.outputTranscription t)).chatHistory =
          st.chatHistory ++ [⟨.ai, t⟩]) ∧
    (∀ st : TState, st.isAiTurnActive = false →
        (runEvents st
            [.outputTranscription "Xin", .outputTranscription " chào"]).chatHistory =
          st.chatHistory ++ [⟨.ai, "Xin chào"⟩]) ∧
    (∀ st : TState, st.isAiTurnActive = false →
        (runEvents st
            [.outputTranscription "Xin", .inputTranscription "Vâng"]).chatHistory =
          st.chatHistory ++ [⟨.ai, "Xin"⟩, ⟨.user, "Vâng"⟩] ∧
        (runEvents st
            [.outputTranscription "Xin", .inputTranscription "Vâng"]).isAiTurnActive
          = false ∧
        (runEvents st
            [.outputTranscription "Xin", .inputTranscription "Vâng"]).isUserTurnActive
          = true) := by
  refine ⟨?_, ?_, ?_, ?_, ?_, ?_⟩
  · intro st m t hact hlast hsend
    have hne : st.chatHistory ≠ [] := by
      intro h
      rw [h] at hlast
      simp at hlast
    constructor
    · simp [stepEvent, hact, appendToLast, hlast, hsend]
    · simp [stepEvent, hact, appendToLast, hlast, hsend, List.length_dropLast]
      have : 1 ≤ st.chatHistory.length := List.length_pos.mpr hne
      omega
  · intro st m t hact hlast hsend
    have hne : st.chatHistory ≠ [] := by
      intro h
      rw [h] at hlast
      simp at hlast
    constructor
    · simp [stepEvent, hact, appendToLast, hlast, hsend]
    · simp [stepEvent, hact, appendToLast, hlast, hsend, List.length_dropLast]
      have : 1 ≤ st.chatHistory.length := List.length_pos.mpr hne
      omega
  · intro st t
    refine ⟨?_, ?_, rfl, rfl, rfl, rfl⟩
    · by_cases h : st.isUserTurnActive <;> simp [stepEvent, h]
    · by_cases h : st.isAiTurnActive <;> simp [stepEvent, h]
  · intro st t h
    simp [stepEvent, h]
  · intro st h
    have h1 : "Xin" ++ " chào" = "Xin chào" := rfl
    simp [runEvents, stepEvent, h, appendToLast, List.getLast?_concat,
      List.dropLast_concat, h1]
  · intro st h
    refine ⟨?_, ?_, ?_⟩ <;>
      simp [runEvents, stepEvent, h, appendToLast]

/-- Witness for C2: the two assistant partials merged from the initial
App.tsx state give exactly one new assistant turn reading "Xin chào". -/
theorem transcript_turn_merge_witness :
    (runEvents initState
        [.outputTranscription "Xin", .outputTranscription " chào"]).chatHistory =
      [⟨.ai, INITIAL_GREETING⟩, ⟨.ai, "Xin chào"⟩] := by
  have h := transcript_turn_merge.2.2.2.2.1 initState rfl
  simpa [initState] using h

/-- The inductive invariant behind C10: the greeting heads the history, and
whenever a turn flag is active the history has at least two messages (so
appends to the last message can never touch the greeting). -/
def TInv (st : TState) : Prop :=
  st.chatHistory.head? = some ⟨.ai, INITIAL_GREETING⟩ ∧
  ((st.isUserTurnActive || st.isAiTurnActive) = true → 2 ≤ st.chatHistory.length)

theorem appendToLast_head_length (h : List ChatMessage) (s : Sender) (t : String)
    (hlen : 2 ≤ h.length) :
    (appendToLast h s t).head? = h.head? ∧
    (appendToLast h s t).length = h.length := by
  match h, hlen with
  | a :: b :: rest, _ =>
    unfold appendToLast
    cases hl : (a :: b :: rest).getLast? with
    | none => simp at hl
    | some m =>
      by_cases hs : m.sender = s
      · simp only [hs, if_pos rfl]
        constructor
        · rw [List.dropLast_cons₂]
          simp
        · simp [List.length_dropLast]
      · simp [hs]

theorem stepEvent_preserves_TInv (st : TState) (e : ServerEvent)
    (hinv : TInv st) : TInv (stepEvent st e) := by
  obtain ⟨hhead, hlen⟩ := hinv
  have hne : st.chatHistory ≠ [] := by
    intro h
    rw [h] at hhead
    simp at hhead
  have hpos : 1 ≤ st.chatHistory.length := List.length_pos.mpr hne
  cases e with
  | inputTranscription t =>
    by_cases hu : st.isUserTurnActive
    · have h2 : 2 ≤ st.chatHistory.length := hlen (by simp [hu])
      obtain ⟨hh, hl⟩ := appendToLast_head_length st.chatHistory .user t h2
      exact ⟨by simpa [stepEvent, hu, hh] using hhead,
        by simp [stepEvent, hu, hl]; omega⟩
    · refine ⟨?_, ?_⟩
      · simp [stepEvent, hu, List.head?_append_of_ne_nil _ hne, hhead]
      · simp [stepEvent, hu]
        omega
  | outputTranscription t =>
    by_cases ha : st.isAiTurnActive
    · have h2 : 2 ≤ st.chatHistory.length := hlen (by simp [ha])
      obtain ⟨hh, hl⟩ := appendToLast_head_length st.chatHistory .ai t h2
      exact ⟨by simpa [stepEvent, ha, hh] using hhead,
        by simp [stepEvent, ha, hl]; omega⟩
    · refine ⟨?_, ?_⟩
      · simp [stepEvent, ha, List.head?_append_of_ne_nil _ hne, hhead]
      · simp [stepEvent, ha]
        omega
  | turnComplete => exact ⟨hhead, by simp [stepEvent]⟩
  | sessionClose => exact ⟨hhead, by simp [stepEvent]⟩

theorem runEvents_preserves_TInv (es : List ServerEvent) (st : TState)
    (hinv : TInv st) : TInv (runEvents st es) := by
  induction es generalizing st with
  | nil => exact hinv
  | cons e es ih => exact ih _ (stepEvent_preserves_TInv st e hinv)

/-- C10: starting from the App.tsx initial state (exactly one assistant
greeting turn), every reachable transcript is non-empty and its first
element is still the fixed greeting. -/
theorem greeting_stays_first (es : List ServerEvent) :
    (runEvents initState es).chatHistory ≠ [] ∧
    (runEvents initState es).chatHistory.head? =
      some ⟨.ai, INITIAL_GREETING⟩ := by
  have hinv : TInv (runEvents initState es) :=
    runEvents_preserves_TInv es initState ⟨rfl, by intro h; simp [initState] at h⟩
  refine ⟨?_, hinv.1⟩
  intro h
  have h1 := hinv.1
  rw [h] at h1
  simp at h1

/-! ## Teardown (App.tsx closeSession, lines 145-174)

The long-lived refs released by `closeSession`.  Audio contexts are
modelled as `Option Bool`: `none` = ref is null, `some closed` = ref holds
a context whose `state` is `'closed'` iff `closed`.  `sources` counts the
live playback sources.  `closeSession` returns the new state together
with the list of release actions it actually performed, so that a second
invocation can be shown to release nothing. -/

structure AppRefs where
  sessionPromise : Bool
  mediaStream : Bool
  scriptProcessor : Bool
  mediaStreamSource : Bool
  inputCtx : Option Bool
  outputCtx : Option Bool
  sources : Nat
  isRecording : Bool
  statusMessage : String
  isUserTurnActive : Bool
  isAiTurnActive : Bool
deriving DecidableEq

inductive ReleaseAction
  | sessionClose
  | trackStop
  | processorDisconnect
  | streamSourceDisconnect
  | inputCtxClose
  | sourceStop (count : Nat)
  | outputCtxClose
deriving DecidableEq

/-- App.tsx `closeSession`: each release step guarded by a null / not-closed
check, then recording flag, status and turn flags are reset. -/
def closeSession (st : AppRefs) : AppRefs × List ReleaseAction :=
  let p1 :=
    if st.sessionPromise then
      ({ st with sessionPromise := false }, [ReleaseAction.sessionClose])
    else (st, [])
  let p2 :=
    if p1.1.mediaStream then
      ({ p1.1 with mediaStream := false }, p1.2 ++ [ReleaseAction.trackStop])
    else p1
  let p3 :=
    if p2.1.scriptProcessor then
      ({ p2.1 with scriptProcessor := false },
        p2.2 ++ [ReleaseAction.processorDisconnect])
    else p2
  let p4 :=
    if p3.1.mediaStreamSource then
      ({ p3.1 with mediaStreamSource := false },
        p3.2 ++ [ReleaseAction.streamSourceDisconnect])
    else p3
  let p5 :=
    match p4.1.inputCtx with
    | some false =>
      ({ p4.1 with inputCtx := some true }, p4.2 ++ [ReleaseAction.inputCtxClose])
    | _ => p4
  let p6 :=
    match p5.1.outputCtx with
    | some false =>
      ({ p5.1 with outputCtx := some true, sources := 0 },
        p5.2 ++ [ReleaseAction.sourceStop p5.1.sources,
                 ReleaseAction.outputCtxClose])
    | _ => p5
  ({ p6.1 with isRecording := false, statusMessage := "Nhấn micro để bắt đầu",
               isUserTurnActive := false, isAiTurnActive := false }, p6.2)

/-- C7: teardown is idempotent.  From any state, invoking `closeSession`
a second time (either directly, or via the remote on-close callback, which
runs the same routine) performs no release action at all and leaves the
state unchanged: every resource is released at most once. -/
theorem closeSession_idempotent (st : AppRefs) :
    closeSession (closeSession st).1 = ((closeSession st).1, []) := by
  rcases st with ⟨sp, ms, sc, mss, ic, oc, src, rec, stat, ua, aa⟩
  cases sp <;> cases ms <;> cases sc <;> cases mss <;>
    rcases ic with _ | ic <;> rcases oc with _ | oc <;>
    (try cases ic) <;> (try cases oc) <;> simp [closeSession]

/-! ## Session setup (App.tsx setupSession, lines 176-308)

`apiKey` models `process.env.API_KEY` (absent ≡ empty string, since the
source tests `!process.env.API_KEY`); `deviceOk` models whether
`getUserMedia` succeeds.  The returned boolean records whether microphone
device access was attempted. -/

def setupSession (apiKey : String) (deviceOk : Bool) (st : AppRefs) :
    AppRefs × Bool :=
  if apiKey = "" then
    ({ st with statusMessage := "Thiếu API Key" }, false)
  else
    let st1 := { st with statusMessage := "Đang khởi tạo..." }
    if deviceOk then
      ({ st1 with mediaStream := true, inputCtx := some false,
                  outputCtx := some false, sessionPromise := true,
                  isRecording := true }, true)
    else
      ((closeSession { st1 with statusMessage := "Không thể truy cập micro." }).1,
        true)

/-- C8: with an empty/absent credential, `setupSession` only sets the
missing-credential status message: the rest of the state (in particular
`isRecording`, i.e. the Idle session state) is untouched, and no
microphone-device access is attempted. -/
theorem missing_credential_no_device (apiKey : String) (deviceOk : Bool)
    (st : AppRefs) (hkey : apiKey = "") :
    setupSession apiKey deviceOk st =
      ({ st with statusMessage := "Thiếu API Key" }, false) ∧
    (setupSession apiKey deviceOk st).1.isRecording = st.isRecording ∧
    (setupSession apiKey deviceOk st).2 = false := by
  refine ⟨?_, ?_, ?_⟩ <;> simp [setupSession, hkey]

/-- Witness for C8 at the idle App.tsx state. -/
theorem missing_credential_no_device_witness :
    setupSession "" true
        ⟨false, false, false, false, none, none, 0, false,
          "Nhấn micro để bắt đầu", false, false⟩ =
      (⟨false, false, false, false, none, none, 0, false,
          "Thiếu API Key", false, false⟩, false) := by
  have h := missing_credential_no_device "" true
    ⟨false, false, false, false, none, none, 0, false,
      "Nhấn micro để bắt đầu", false, false⟩ rfl
  exact h.1

/-! ## Base64 codec (App.tsx `encode`/`decode`, lines 9-26)

`encode` builds a binary string from the bytes and calls `btoa`; `decode`
calls `atob` and reads the char codes back.  We model the composite
byte-sequence → base64-text function directly: standard base64 over the
64-character alphabet with `=` padding, processing 3 bytes per 4 output
characters. -/

def b64chars : List Char :=
  "ABCDEFGHIJKLMNOPQRSTUVWXYZabcdefghijklmnopqrstuvwxyz0123456789+/".toList

def charOfSextet (n : Nat) : Char := b64chars.getD n '='

def sextetOfChar (c : Char) : Nat := b64chars.indexOf c

theorem sextet_round : ∀ n < 64, sextetOfChar (charOfSextet n) = n := by decide

theorem charOf_ne_pad : ∀ n < 64, charOfSextet n ≠ '=' := by decide

/-- App.tsx `encode` composed with `btoa`: bytes to base64 text. -/
def encode : List Nat → List Char
  | [] => []
  | [a] =>
    [charOfSextet (a / 4), charOfSextet (a % 4 * 16), '=', '=']
  | [a, b] =>
    [charOfSextet (a / 4), charOfSextet (a % 4 * 16 + b / 16),
     charOfSextet (b % 16 * 4), '=']
  | a :: b :: c :: rest =>
    charOfSextet (a / 4) :: charOfSextet (a % 4 * 16 + b / 16) ::
      charOfSextet (b % 16 * 4 + c / 64) :: charOfSextet (c % 64) :: encode rest

/-- App.tsx `decode`: `atob` composed with reading char codes back into a
byte array. -/
def decode : List Char → List Nat
  | c1 :: c2 :: c3 :: c4 :: rest =>
    if c3 = '=' then
      [sextetOfChar c1 * 4 + sextetOfChar c2 / 16]
    else if c4 = '=' then
      [sextetOfChar c1 * 4 + sextetOfChar c2 / 16,
       sextetOfChar c2 % 16 * 16 + sextetOfChar c3 / 4]
    else
      (sextetOfChar c1 * 4 + sextetOfChar c2 / 16) ::
        (sextetOfChar c2 % 16 * 16 + sextetOfChar c3 / 4) ::
        (sextetOfChar c3 % 4 * 64 + sextetOfChar c4) :: decode rest
  | _ => []

/-- C5: base64 decoding is a left inverse of base64 encoding over
arbitrary byte sequences (bytes, i.e. values below 256). -/
theorem decode_encode : ∀ l : List Nat, (∀ x ∈ l, x < 256) →
    decode (encode l) = l
  | [], _ => by simp [encode, decode]
  | [a], h => by
    have ha : a < 256 := h a (by simp)
    have h1 : a / 4 < 64 := by omega
    have h2 : a % 4 * 16 < 64 := by omega
    simp [encode, decode, sextet_round _ h1, sextet_round _ h2]
    omega
  | [a, b], h => by
    have ha : a < 256 := h a (by simp)
    have hb : b < 256 := h b (by simp)
    have h1 : a / 4 < 64 := by omega
    have h2 : a % 4 * 16 + b / 16 < 64 := by omega
    have h3 : b % 16 * 4 < 64 := by omega
    simp [encode, decode, charOf_ne_pad _ h3,
      sextet_round _ h1, sextet_round _ h2, sextet_round _ h3]
    omega
  | a :: b :: c :: rest, h => by
    have ih := decode_encode rest (fun x hx => h x (by simp [hx]))
    have ha : a < 256 := h a (by simp)
    have hb : b < 256 := h b (by simp)
    have hc : c < 256 := h c (by simp)
    have h1 : a / 4 < 64 := by omega
    have h2 : a % 4 * 16 + b / 16 < 64 := by omega
    have h3 : b % 16 * 4 + c / 64 < 64 := by omega
    have h4 : c % 64 < 64 := by omega
    simp [encode, decode, charOf_ne_pad _ h3, charOf_ne_pad _ h4,
      sextet_round _ h1, sextet_round _ h2, sextet_round _ h3,
      sextet_round _ h4, ih]
    omega

/-- Witness for C5 at a concrete byte sequence. -/
theorem decode_encode_witness : decode (encode [0, 255, 77, 128]) = [0, 255, 77, 128] :=
  decode_encode [0, 255, 77, 128] (by decide)

/-! ## PCM16 codec (App.tsx `createBlob` lines 133-143, `decodeAudioData`
lines 28-45)

Float samples are modelled as rationals.  The JavaScript `Int16Array`
element assignment `int16[i] = data[i] * 32768` performs ToInt16:
truncation toward zero followed by wrapping modulo 2^16 into
[-32768, 32767].  `new Uint8Array(int16.buffer)` serializes each stored
16-bit value as two little-endian bytes.  `new Int16Array(data.buffer)`
throws when the byte length is odd; otherwise each little-endian byte
pair is read back as a signed 16-bit value. -/

/-- Truncation toward zero, the integer conversion JavaScript applies
before wrapping. -/
def itrunc (x : ℚ) : ℤ := if 0 ≤ x then ⌊x⌋ else ⌈x⌉

/-- Wrap an integer modulo 2^16 into the signed 16-bit range
(JavaScript ToInt16). -/
def toInt16 (n : ℤ) : ℤ :=
  if 32768 ≤ n % 65536 then n % 65536 - 65536 else n % 65536

/-- The two little-endian bytes of a stored 16-bit value. -/
def i16ToLEBytes (v : ℤ) : List ℕ :=
  [(v % 65536).toNat % 256, (v % 65536).toNat / 256]

/-- The PCM byte payload built by App.tsx `createBlob` before base64
encoding. -/
def createBlobPcm (data : List ℚ) : List ℕ :=
  ((data.map fun s => toInt16 (itrunc (s * 32768))).map i16ToLEBytes).flatten

structure EncodedBlob where
  data : List Char
  mimeType : String

/-- App.tsx `createBlob`: PCM16-encode the float frame and wrap it in a
base64 media blob. -/
def createBlob (data : List ℚ) : EncodedBlob :=
  ⟨encode (createBlobPcm data), "audio/pcm;rate=16000"⟩

/-- Reading one little-endian byte pair as a signed 16-bit value
(the Int16Array view in `decodeAudioData`). -/
def i16OfLE (lo hi : ℕ) : ℤ :=
  if 32768 ≤ lo + 256 * hi then (lo + 256 * hi : ℤ) - 65536
  else (lo + 256 * hi : ℤ)

/-- `new Int16Array(data.buffer)`: fails (throws) when the byte length is
odd, otherwise yields the 16-bit samples. -/
def bytesToInt16 : List ℕ → Option (List ℤ)
  | [] => some []
  | [_] => none
  | lo :: hi :: rest => (bytesToInt16 rest).map fun l => i16OfLE lo hi :: l

/-- App.tsx `decodeAudioData`: view the bytes as 16-bit samples, then
deinterleave `frameCount = samples.length / numChannels` frames per
channel, dividing by 32768.0. -/
def decodeAudioData (bytes : List ℕ) (numChannels : ℕ) :
    Option (List (List ℚ)) :=
  (bytesToInt16 bytes).map fun samples =>
    (List.range numChannels).map fun ch =>
      (List.range (samples.length / numChannels)).map fun i =>
        ((samples.getD (i * numChannels + ch) 0 : ℤ) : ℚ) / 32768

theorem bytesToInt16_isSome : ∀ bytes : List ℕ,
    (bytesToInt16 bytes).isSome ↔ bytes.length % 2 = 0
  | [] => by simp [bytesToInt16]
  | [x] => by simp [bytesToInt16]
  | lo :: hi :: rest => by
    have ih := bytesToInt16_isSome rest
    simp only [bytesToInt16, Option.isSome_map', List.length_cons]
    rw [ih]
    omega

theorem bytesToInt16_length : ∀ (bytes : List ℕ) (samples : List ℤ),
    bytesToInt16 bytes = some samples → samples.length = bytes.length / 2
  | [], samples, h => by
    simp [bytesToInt16] at h
    simp [← h]
  | [x], samples, h => by simp [bytesToInt16] at h
  | lo :: hi :: rest, samples, h => by
    simp only [bytesToInt16, Option.map_eq_some'] at h
    obtain ⟨l, hl, rfl⟩ := h
    have ih := bytesToInt16_length rest l hl
    simp [ih]
    omega

/-- C9: the playback decode step fails exactly when the decoded byte
length is odd; on even input it succeeds with `numChannels` channels of
`byteLength / 2 / numChannels` frames each. -/
theorem decodeAudioData_even_length (bytes : List ℕ) (numChannels : ℕ)
    (hch : 0 < numChannels) :
    ((decodeAudioData bytes numChannels).isSome ↔ bytes.length % 2 = 0) ∧
    ∀ frames, decodeAudioData bytes numChannels = some frames →
      frames.length = numChannels ∧
      ∀ f ∈ frames, f.length = bytes.length / 2 / numChannels := by
  constructor
  · simp only [decodeAudioData, Option.isSome_map']
    exact bytesToInt16_isSome bytes
  · intro frames h
    simp only [decodeAudioData, Option.map_eq_some'] at h
    obtain ⟨samples, hs, rfl⟩ := h
    refine ⟨by simp, ?_⟩
    intro f hf
    simp only [List.mem_map] at hf
    obtain ⟨ch, _, rfl⟩ := hf
    simp [bytesToInt16_length bytes samples hs]

/-- Witness for C9: a 3-byte payload cannot be viewed as 16-bit samples,
a 4-byte one decodes to two mono frames. -/
theorem decodeAudioData_even_length_witness :
    ((decodeAudioData [1, 2, 3] 1).isSome ↔ [1, 2, 3].length % 2 = 0) ∧
    ((decodeAudioData [1, 2, 3, 4] 1).isSome ↔ [1, 2, 3, 4].length % 2 = 0) :=
  ⟨(decodeAudioData_even_length [1, 2, 3] 1 (by decide)).1,
   (decodeAudioData_even_length [1, 2, 3, 4] 1 (by decide)).1⟩

theorem toInt16_range (n : ℤ) : -32768 ≤ toInt16 n ∧ toInt16 n ≤ 32767 := by
  unfold toInt16
  split <;> omega

theorem toInt16_of_range (t : ℤ) (h1 : -32768 ≤ t) (h2 : t ≤ 32767) :
    toInt16 t = t := by
  unfold toInt16
  split <;> omega

theorem i16OfLE_round (t : ℤ) (h1 : -32768 ≤ t) (h2 : t ≤ 32767) :
    i16OfLE ((t % 65536).toNat % 256) ((t % 65536).toNat / 256) = t := by
  unfold i16OfLE
  split <;> omega

/-- Serializing in-range 16-bit values as little-endian byte pairs and
viewing the bytes back as an Int16Array is the identity. -/
theorem bytesToInt16_flatten : ∀ ts : List ℤ,
    (∀ t ∈ ts, -32768 ≤ t ∧ t ≤ 32767) →
    bytesToInt16 ((ts.map i16ToLEBytes).flatten) = some ts
  | [], _ => by simp [bytesToInt16]
  | t :: ts, h => by
    have ih := bytesToInt16_flatten ts (fun x hx => h x (List.mem_cons_of_mem _ hx))
    obtain ⟨h1, h2⟩ := h t (List.mem_cons_self t ts)
    simp only [List.map_cons, List.flatten_cons, i16ToLEBytes, List.cons_append,
      List.nil_append, bytesToInt16, Option.map_some']
    rw [i16OfLE_round t h1 h2]
    simp [ih]

/-- One sample: truncation toward zero stays in the signed 16-bit range
and within one quantization step of the scaled sample, for samples in
[-1, 1). -/
theorem trunc16_close (s : ℚ) (h1 : -1 ≤ s) (h2 : s < 1) :
    -32768 ≤ itrunc (s * 32768) ∧ itrunc (s * 32768) ≤ 32767 ∧
    |s - ((toInt16 (itrunc (s * 32768)) : ℤ) : ℚ) / 32768| ≤ 1 / 32768 := by
  have hx1 : (-32768 : ℚ) ≤ s * 32768 := by linarith
  have hx2 : s * 32768 < 32768 := by linarith
  unfold itrunc
  by_cases hpos : (0 : ℚ) ≤ s * 32768
  · rw [if_pos hpos]
    have hfl : ((⌊s * 32768⌋ : ℤ) : ℚ) ≤ s * 32768 := Int.floor_le _
    have hfu : s * 32768 < ⌊s * 32768⌋ + 1 := Int.lt_floor_add_one _
    have hta : 0 ≤ ⌊s * 32768⌋ := Int.floor_nonneg.mpr hpos
    have htb : ⌊s * 32768⌋ ≤ 32767 := by
      by_contra hcon
      push_neg at hcon
      have : (32768 : ℚ) ≤ ((⌊s * 32768⌋ : ℤ) : ℚ) := by exact_mod_cast hcon
      linarith
    refine ⟨by omega, htb, ?_⟩
    rw [toInt16_of_range _ (by omega) htb, abs_le]
    constructor <;> [linarith; linarith]
  · rw [if_neg hpos]
    push_neg at hpos
    have hcl : s * 32768 ≤ ((⌈s * 32768⌉ : ℤ) : ℚ) := Int.le_ceil _
    have hcu : ((⌈s * 32768⌉ : ℤ) : ℚ) < s * 32768 + 1 := Int.ceil_lt_add_one _
    have hta : -32768 ≤ ⌈s * 32768⌉ := by
      have : (-32768 : ℚ) ≤ ((⌈s * 32768⌉ : ℤ) : ℚ) := le_trans hx1 hcl
      exact_mod_cast this
    have htb : ⌈s * 32768⌉ ≤ 0 := Int.ceil_le.mpr (by push_cast; linarith)
    refine ⟨hta, by omega, ?_⟩
    rw [toInt16_of_range _ hta (by omega), abs_le]
    constructor <;> [linarith; linarith]

/-- C3 (amended): for samples in [-1, 1) the decoded mono frame recovers
the input within one quantization step 1/32768; the decoded frame is the
truncated-and-wrapped value of each sample divided back by 32768. -/
theorem pcm_roundtrip (data : List ℚ) (h : ∀ s ∈ data, -1 ≤ s ∧ s < 1) :
    decodeAudioData (createBlobPcm data) 1 =
      some [data.map fun s => ((toInt16 (itrunc (s * 32768)) : ℤ) : ℚ) / 32768] ∧
    ∀ i, i < data.length →
      |data.getD i 0 -
          (data.map fun s =>
            ((toInt16 (itrunc (s * 32768)) : ℤ) : ℚ) / 32768).getD i 0| ≤
        1 / 32768 := by
  have hts : bytesToInt16 (createBlobPcm data) =
      some (data.map fun s => toInt16 (itrunc (s * 32768))) := by
    apply bytesToInt16_flatten
    intro t ht
    simp only [List.mem_map] at ht
    obtain ⟨s, _, rfl⟩ := ht
    exact toInt16_range _
  constructor
  · simp only [decodeAudioData, hts, Option.map_some', Option.some.injEq]
    rw [show List.range 1 = [0] from rfl]
    simp only [List.map_cons, List.map_nil, List.cons.injEq, and_true]
    apply List.ext_getElem
    · simp
    · intro i hi1 hi2
      simp only [List.getElem_map, List.getElem_range]
      rw [List.getD_eq_getElem _ _ (by simpa using hi2)]
      simp
  · intro i hi
    rw [List.getD_eq_getElem _ 0 hi,
      List.getD_eq_getElem _ 0 (by simpa using hi), List.getElem_map]
    have hmem : data[i] ∈ data := List.getElem_mem _
    exact (trunc16_close data[i] (h _ hmem).1 (h _ hmem).2).2.2

/-- Witness for C3 at the sample 1/2: decode recovers it within one
quantization step. -/
theorem pcm_roundtrip_witness :
    decodeAudioData (createBlobPcm [(1 / 2 : ℚ)]) 1 =
      some [[((toInt16 (itrunc ((1 / 2 : ℚ) * 32768)) : ℤ) : ℚ) / 32768]] ∧
    |(1 / 2 : ℚ) - ((toInt16 (itrunc ((1 / 2 : ℚ) * 32768)) : ℤ) : ℚ) / 32768| ≤
      1 / 32768 := by
  have h := pcm_roundtrip [(1 / 2 : ℚ)] (by norm_num)
  exact ⟨by simpa using h.1, by simpa using h.2 0 (by norm_num)⟩

/-- Counterexample to C3 as stated: the in-range sample 1 wraps to -1, an
error of 2, far beyond one quantization step. -/
theorem pcm_roundtrip_fails_at_one :
    decodeAudioData (createBlobPcm [(1 : ℚ)]) 1 = some [[(-1 : ℚ)]] ∧
    ¬ |(1 : ℚ) - (-1 : ℚ)| ≤ 1 / 32768 := by
  constructor
  · have e1 : itrunc ((1 : ℚ) * 32768) = 32768 := by norm_num [itrunc]
    have e2 : createBlobPcm [(1 : ℚ)] = [0, 128] := by
      simp [createBlobPcm, e1]
      decide
    rw [e2]
    have e3 : bytesToInt16 [0, 128] = some [-32768] := by decide
    simp only [decodeAudioData, e3, Option.map_some', Option.some.injEq]
    norm_num [List.range_succ]
  · norm_num

/-- C4 (amended): `createBlob` maps each sample `s` to ToInt16(s * 32768)
— truncation toward zero wrapped modulo 2^16 into [-32768, 32767], not
rounding — serialized little-endian; no clamping is applied: the
out-of-range sample 2 wraps to the bytes [0, 0] instead of clamping to
32767 = [255, 127]. -/
theorem createBlob_truncates_unclamped :
    (∀ data : List ℚ, bytesToInt16 (createBlobPcm data) =
        some (data.map fun s => toInt16 (itrunc (s * 32768)))) ∧
    createBlobPcm [(2 : ℚ)] = [0, 0] ∧
    createBlobPcm [(2 : ℚ)] ≠ [255, 127] := by
  refine ⟨?_, ?_, ?_⟩
  · intro data
    apply bytesToInt16_flatten
    intro t ht
    simp only [List.mem_map] at ht
    obtain ⟨s, _, rfl⟩ := ht
    exact toInt16_range _
  · have e1 : itrunc ((2 : ℚ) * 32768) = 65536 := by norm_num [itrunc]
    simp [createBlobPcm, e1]
    decide
  · have e1 : itrunc ((2 : ℚ) * 32768) = 65536 := by norm_num [itrunc]
    simp [createBlobPcm, e1]
    decide

/-- Modelled from the spec's words, for comparison with the source:
`floatFrameToPcm16` as the spec states it, `round(s * 32768)` stored as a
little-endian 16-bit signed integer. -/
def specFloatFrameToPcm16 (data : List ℚ) : List ℕ :=
  ((data.map fun s => toInt16 (round (s * 32768))).map i16ToLEBytes).flatten

/-- Counterexample to C4 as stated: on the sample 3/65536 (scaled value
1.5) the source truncates to 1 while `round` gives 2, so the produced
bytes differ from the spec's rounding description. -/
theorem createBlob_not_rounding :
    createBlobPcm [(3 / 65536 : ℚ)] = [1, 0] ∧
    specFloatFrameToPcm16 [(3 / 65536 : ℚ)] = [2, 0] ∧
    createBlobPcm [(3 / 65536 : ℚ)] ≠ specFloatFrameToPcm16 [(3 / 65536 : ℚ)] := by
  have e1 : itrunc ((3 / 65536 : ℚ) * 32768) = 1 := by norm_num [itrunc]
  have e2 : round ((3 / 65536 : ℚ) * 32768) = 2 := by norm_num [round_eq]
  refine ⟨?_, ?_, ?_⟩
  · simp [createBlobPcm, e1]
    decide
  · simp [specFloatFrameToPcm16, e2]
    decide
  · simp [createBlobPcm, specFloatFrameToPcm16, e1, e2]
    decide

end VoiceChat
